import Mathlib

/-!
Verification of the population and archipelago components of the pagmo2
repository (src/include/population.hpp and src/include/pagmo/archipelago.hpp)
against its natural-language specification.  The C++ code is shallowly
embedded: real vectors become lists of rationals, fallible operations return
an error/result pair, and the deterministic random engines are represented by
the seed they were constructed with together with the number of draws made so
far, the draw function being a parameter of the model.
-/

namespace Pagmo

/-- vector_double from types.hpp: real vectors are modelled as lists of rationals. -/
abbrev Vec := List ℚ

/-- Modelled from the spec: problem.hpp is not under src/.  A problem handle is an
opaque evaluator reporting dimensions and bounds; per the spec data model,
nf = nobj + nec + nic and nx is the dimension of the bounds.  fitness returns
none when the user code fails. -/
structure problem where
  nobj : Nat
  nec : Nat
  nic : Nat
  lb : Vec
  ub : Vec
  fitness : Vec → Option Vec

def problem.get_nobj (p : problem) : Nat := p.nobj

def problem.get_nec (p : problem) : Nat := p.nec

def problem.get_nic (p : problem) : Nat := p.nic

def problem.get_nc (p : problem) : Nat := p.nec + p.nic

def problem.get_nf (p : problem) : Nat := p.nobj + p.nec + p.nic

def problem.get_nx (p : problem) : Nat := p.lb.length

def problem.get_bounds (p : problem) : Vec × Vec := (p.lb, p.ub)

/-- Replace the fitness evaluator of a problem, keeping every dimension and the
bounds; used to state that an operation never invokes problem::fitness. -/
def problem.with_fitness (p : problem) (fn : Vec → Option Vec) : problem :=
  { p with fitness := fn }

/-- Modelled from the spec: rng.hpp is not under src/.  detail::random_engine_type is
a deterministic engine; its state is the construction seed plus the number of draws
made so far, and the draw function g is a parameter of the model. -/
structure engine where
  seed : Nat
  count : Nat
deriving DecidableEq

def engine.next (g : Nat → Nat → Nat) (e : engine) : Nat × engine :=
  (g e.seed e.count, { seed := e.seed, count := e.count + 1 })

/-- Abstract error kinds, following the error taxonomy of the spec. -/
inductive popError where
  | DimensionMismatch
  | InvalidOperation
  | OutOfRange
  | UserFailure
deriving DecidableEq

/-- pagmo::population: problem handle, aligned ID / decision vector / fitness vector
sequences, random engine and seed. -/
structure population where
  m_prob : problem
  m_ID : List Nat
  m_x : List Vec
  m_f : List Vec
  m_e : engine
  m_seed : Nat

def population.size (pop : population) : Nat := pop.m_ID.length

def population.get_ID (pop : population) : List Nat := pop.m_ID

def population.get_x (pop : population) : List Vec := pop.m_x

def population.get_f (pop : population) : List Vec := pop.m_f

def population.get_problem (pop : population) : problem := pop.m_prob

def population.get_seed (pop : population) : Nat := pop.m_seed

/-- population::push_back(x): draw a fresh id from the internal engine, evaluate the
fitness of x, then check the decision vector dimension and the fitness dimension
before appending the triple.  The id is drawn and the fitness evaluated before the
checks run, exactly as in the source; on any failure the three sequences are left
untouched (only the engine has advanced). -/
def population.push_back (g : Nat → Nat → Nat) (pop : population) (x : Vec) :
    Except popError Unit × population :=
  let new_id := (engine.next g pop.m_e).1
  let pop1 : population := { pop with m_e := (engine.next g pop.m_e).2 }
  match pop.m_prob.fitness x with
  | none => (.error .UserFailure, pop1)
  | some f =>
    if x.length ≠ pop.m_prob.get_nx then (.error .DimensionMismatch, pop1)
    else if f.length ≠ pop.m_prob.get_nf then (.error .DimensionMismatch, pop1)
    else (.ok (), { pop1 with
                    m_ID := pop.m_ID ++ [new_id]
                    m_x := pop.m_x ++ [x]
                    m_f := pop.m_f ++ [f] })

/-- population::decision_vector(): draw a seed from the internal engine and sample a
vector within the problem bounds.  pagmo::decision_vector of utils/generic.hpp is
not under src/ and is modelled from the spec (uniform draw within the bounds) as the
parameter dv. -/
def population.decision_vector (g : Nat → Nat → Nat) (dv : Vec × Vec → Nat → Vec)
    (pop : population) : Vec × population :=
  (dv pop.m_prob.get_bounds (engine.next g pop.m_e).1,
   { pop with m_e := (engine.next g pop.m_e).2 })

/-- The loop of the population constructor: pop_size times push_back(decision_vector());
a failure of push_back aborts the construction. -/
def construct_loop (g : Nat → Nat → Nat) (dv : Vec × Vec → Nat → Vec) :
    Nat → population → Option population
  | 0, pop => some pop
  | n + 1, pop =>
    let xp := pop.decision_vector g dv
    match xp.2.push_back g xp.1 with
    | (Except.ok _, pop2) => construct_loop g dv n pop2
    | (Except.error _, _) => none

/-- population::population(p, pop_size, seed): the engine is seeded with seed,
m_seed is set to seed, and pop_size random individuals are pushed back. -/
def population.construct (g : Nat → Nat → Nat) (dv : Vec × Vec → Nat → Vec)
    (p : problem) (pop_size : Nat) (seed : Nat) : Option population :=
  construct_loop g dv pop_size
    { m_prob := p, m_ID := [], m_x := [], m_f := [],
      m_e := { seed := seed, count := 0 }, m_seed := seed }

/-- population::set_xf(i, x, f): check i against the size, the fitness dimension and
the decision vector dimension, in the order of the source, then overwrite the stored
vectors element-wise (std::copy into the existing storage), leaving ids untouched. -/
def population.set_xf (pop : population) (i : Nat) (x f : Vec) :
    Except popError Unit × population :=
  if pop.size ≤ i then (.error .OutOfRange, pop)
  else if f.length ≠ pop.m_prob.get_nf then (.error .DimensionMismatch, pop)
  else if x.length ≠ pop.m_prob.get_nx then (.error .DimensionMismatch, pop)
  else (.ok (), { pop with
                  m_x := pop.m_x.set i (x ++ (pop.m_x.getD i []).drop x.length)
                  m_f := pop.m_f.set i (f ++ (pop.m_f.getD i []).drop f.length) })

/-- population::set_x(i, x): set_xf(i, x, m_prob.fitness(x)); a failure of the fitness
evaluation propagates before set_xf runs. -/
def population.set_x (pop : population) (i : Nat) (x : Vec) :
    Except popError Unit × population :=
  match pop.m_prob.fitness x with
  | none => (.error .UserFailure, pop)
  | some f => pop.set_xf i x f

/-- The composite operation set_both(i, x, problem.fitness(x)) as worded by the spec:
evaluate the fitness of x, then hand the pair to the simultaneous setter; a fitness
failure makes the whole composite fail with the population unchanged. -/
def set_both_of_x (pop : population) (i : Nat) (x : Vec) :
    Except popError Unit × population :=
  match pop.m_prob.fitness x with
  | none => (.error .UserFailure, pop)
  | some f => pop.set_xf i x f

/-- The invariant of the spec data model: the three sequences are aligned and every
stored vector has the dimension dictated by the problem. -/
def population.invariant (pop : population) : Prop :=
  pop.m_x.length = pop.m_ID.length ∧ pop.m_f.length = pop.m_ID.length ∧
    (∀ v ∈ pop.m_x, v.length = pop.m_prob.get_nx) ∧
    (∀ v ∈ pop.m_f, v.length = pop.m_prob.get_nf)

instance (pop : population) : Decidable pop.invariant := by
  unfold population.invariant
  infer_instance

/-- Modelled from the spec: utils/constrained.hpp is not under src/.  Aggregated
constraint violation of a single-objective fitness vector obj :: ec ++ ic: the
clipped excess of each equality constraint's absolute value over its tolerance plus
the clipped excess of each inequality constraint over its tolerance. -/
def con_violation (nec : Nat) (tol : Vec) (f : Vec) : ℚ :=
  let cs := f.drop 1
  (((cs.take nec).zip (tol.take nec)).map (fun ct => max 0 (abs ct.1 - ct.2))).sum
    + (((cs.drop nec).zip (tol.drop nec)).map (fun ct => max 0 (ct.1 - ct.2))).sum

/-- Modelled from the spec: the constrained ordering of fitness vectors, feasible
first, feasible ones by objective, infeasible ones by aggregated violation. -/
def con_lt (nec : Nat) (tol : Vec) (f1 f2 : Vec) : Bool :=
  if con_violation nec tol f1 = 0 then
    if con_violation nec tol f2 = 0 then decide (f1.headD 0 < f2.headD 0)
    else true
  else
    if con_violation nec tol f2 = 0 then false
    else decide (con_violation nec tol f1 < con_violation nec tol f2)

/-- Insertion into a list sorted by the boolean relation lt. -/
def insert_by (lt : α → α → Bool) (a : α) : List α → List α
  | [] => [a]
  | b :: l => if lt a b then a :: b :: l else b :: insert_by lt a l

/-- Insertion sort by the boolean relation lt. -/
def sort_by (lt : α → α → Bool) : List α → List α
  | [] => []
  | a :: l => insert_by lt a (sort_by lt l)

/-- Modelled from the spec: pagmo::sort_population_con returns the indices of the
fitness vectors sorted by the constrained ordering with tolerance vector tol. -/
def sort_population_con (input_f : List Vec) (nec : Nat) (tol : Vec) : List Nat :=
  sort_by (fun i j => con_lt nec tol (input_f.getD i []) (input_f.getD j []))
    (List.range input_f.length)

/-- Lexicographic comparison of two real vectors, as operator< of std::vector. -/
def vec_lt : Vec → Vec → Bool
  | _, [] => false
  | [], _ :: _ => true
  | a :: as, b :: bs => if a < b then true else if b < a then false else vec_lt as bs

/-- std::min_element over a list of indices: the first element wins ties; the
accumulator is replaced only when the candidate is strictly smaller. -/
def min_element (lt : Nat → Nat → Bool) : List Nat → Nat
  | [] => 0
  | a :: l => l.foldl (fun m i => if lt i m then i else m) a

/-- population::champion(tol): reject the empty population and multi-objective
problems; with constraints present delegate to sort_population_con and take the
first index, otherwise take the min_element of the indices under the lexicographic
comparison of the stored fitness vectors. -/
def population.champion (pop : population) (tol : Vec) : Except popError Nat :=
  if pop.size = 0 then .error .InvalidOperation
  else if 1 < pop.m_prob.get_nobj then .error .InvalidOperation
  else if 0 < pop.m_prob.get_nc then
    .ok ((sort_population_con pop.m_f pop.m_prob.get_nec tol).headD 0)
  else
    .ok (min_element (fun i j => vec_lt (pop.m_f.getD i []) (pop.m_f.getD j []))
      (List.range pop.size))

/-- 2 to the 32nd, the modulus of the 32-bit arithmetic of std::mt19937. -/
def M32 : Nat := 2 ^ 32

/-- The seeding recurrence of std::mt19937 (mersenne_twister_engine with the
standard parameters): state word i of the freshly seeded engine. -/
def mt_init (seed : Nat) : Nat → Nat
  | 0 => seed % M32
  | i + 1 =>
    let p := mt_init seed i
    (1812433253 * (p ^^^ (p >>> 30)) + (i + 1)) % M32

/-- The generation recurrence of std::mt19937: the first n entries of the
untempered state sequence, the first 624 entries being the seeded state and entry
i ≥ 624 produced by the twist transformation from entries i - 624, i - 623 and
i - 227 (that is, x[k + 624] = x[k + 397] xor twist(upper bit of x[k], lower 31
bits of x[k + 1])).  The sequence is built as a list to keep the recursion
structural. -/
def mt_state_list (seed : Nat) : Nat → List Nat
  | 0 => []
  | i + 1 =>
    let prev := mt_state_list seed i
    let v :=
      if i < 624 then mt_init seed i
      else
        let y := prev.getD (i - 624) 0 / 2 ^ 31 * 2 ^ 31 + prev.getD (i - 623) 0 % 2 ^ 31
        prev.getD (i - 227) 0 ^^^ ((y / 2) ^^^ (if y % 2 = 1 then 2567483615 else 0))
    prev ++ [v]

/-- Entry i of the untempered std::mt19937 state sequence. -/
def mt_raw (seed : Nat) (i : Nat) : Nat := (mt_state_list seed (i + 1)).getD i 0

/-- The tempering transformation of std::mt19937, applied to every extracted word. -/
def mt_temper (y0 : Nat) : Nat :=
  let y1 := y0 ^^^ (y0 >>> 11)
  let y2 := y1 ^^^ ((y1 <<< 7) % M32 &&& 2636928640)
  let y3 := y2 ^^^ ((y2 <<< 15) % M32 &&& 4022730752)
  y3 ^^^ (y3 >>> 18)

/-- Output j of a std::mt19937 engine seeded with seed: the tempered state word
624 + j (the twist runs before the first extraction). -/
def mt_output (seed : Nat) (j : Nat) : Nat := mt_temper (mt_raw seed (624 + j))

/-- A std::mt19937 engine, represented by its construction seed and the number of
draws made so far.  std::uniform_int_distribution over the full unsigned range is
modelled as the raw 32-bit draw of the engine. -/
structure mt19937 where
  seed : Nat
  count : Nat
deriving DecidableEq

def mt19937.next (e : mt19937) : Nat × mt19937 :=
  (mt_output e.seed e.count, { seed := e.seed, count := e.count + 1 })

/-- The seed-derivation loop of archipelago::n_ctor: k draws from the meta engine,
in order. -/
def n_ctor_seed_loop (e : mt19937) : Nat → List Nat
  | 0 => []
  | k + 1 => (mt19937.next e).1 :: n_ctor_seed_loop (mt19937.next e).2 k

/-- The per-island population seeds derived by archipelago::n_ctor(n, a, p, size,
seed): the supplied seed is cast to unsigned and seeds a std::mt19937 from which one
seed per island is drawn. -/
def n_ctor_seeds (seed n : Nat) : List Nat := n_ctor_seed_loop { seed := seed % M32, count := 0 } n

/-- Modelled from the spec: island.hpp is not under src/; an island built by
archipelago::n_ctor from (algo, prob, size, seed) carries a population constructed
from (prob, size, seed), and the algorithm handle is opaque.  This loop runs the
n_ctor body: draw a seed from the meta engine, construct the island's population,
and fail when an island constructor throws. -/
def archi_n_ctor_loop (g : Nat → Nat → Nat) (dv : Vec × Vec → Nat → Vec)
    (p : problem) (pop_size : Nat) (e : mt19937) : Nat → Option (List population)
  | 0 => some []
  | k + 1 =>
    match population.construct g dv p pop_size (mt19937.next e).1 with
    | none => none
    | some pop => (archi_n_ctor_loop g dv p pop_size (mt19937.next e).2 k).map (pop :: ·)

/-- archipelago::n_ctor(n, algo, prob, size, seed): the meta engine is seeded with
the supplied seed cast to unsigned, and each of the n islands receives a population
seed freshly drawn from it. -/
def archi_n_ctor (g : Nat → Nat → Nat) (dv : Vec × Vec → Nat → Vec)
    (p : problem) (pop_size : Nat) (n : Nat) (seed : Nat) : Option (List population) :=
  archi_n_ctor_loop g dv p pop_size { seed := seed % M32, count := 0 } n

/-- individuals_group_t: three parallel sequences of ids, decision vectors and
fitness vectors. -/
def individuals_group : Type := List Nat × List Vec × List Vec

/-- pagmo::archipelago, abstracted over the island payload type ι and the topology
type τ (island.hpp and topology.hpp are not under src/).  Each owned island is a
boxed object with a stable address, modelled as an address/payload pair; the index
map associates addresses to positions. -/
structure archi (ι τ : Type) where
  m_islands : List (Nat × ι)
  m_idx_map : List (Nat × Nat)
  m_migrants : List individuals_group
  m_topology : τ

/-- A serialization archive holding the three components read back by
archipelago::load, each of which may fail to deserialize. -/
structure archive (ι τ : Type) where
  islands : Option (List (Nat × ι))
  migrants : Option (List individuals_group)
  topo : Option τ

/-- std::unordered_map::emplace: insert the binding only when the key is absent. -/
def idx_map_emplace (m : List (Nat × Nat)) (k v : Nat) : List (Nat × Nat) :=
  if (m.lookup k).isSome then m else m ++ [(k, v)]

/-- The index-map rebuilding loop of archipelago::load: emplace (address of island
i, i) for every loaded island. -/
def idx_map_build_from (addrs : List Nat) (i : Nat) (m : List (Nat × Nat)) :
    List (Nat × Nat) :=
  match addrs with
  | [] => m
  | a :: rest => idx_map_build_from rest (i + 1) (idx_map_emplace m a i)

def idx_map_build (addrs : List Nat) : List (Nat × Nat) := idx_map_build_from addrs 0 []

/-- archipelago::load: read the islands, rebuild the index map, read the migrants
and the topology into a temporary archipelago, and move-assign it into the target
only after every step has succeeded; a failure of any step leaves the target
unchanged.  The first component reports success, the second is the state of the
target after the call. -/
def archi.load (a : archi ι τ) (ar : archive ι τ) : Except Unit Unit × archi ι τ :=
  match ar.islands with
  | none => (.error (), a)
  | some isls =>
    let tmp_idx_map := idx_map_build (isls.map Prod.fst)
    match ar.migrants with
    | none => (.error (), a)
    | some migs =>
      match ar.topo with
      | none => (.error (), a)
      | some t =>
        (.ok (), { m_islands := isls, m_idx_map := tmp_idx_map,
                   m_migrants := migs, m_topology := t })

section PushBackTheorems

/-- A benign one-dimensional, single-objective, unconstrained problem whose fitness
evaluation always returns the one-element vector 0. -/
def ok_problem : problem :=
  { nobj := 1, nec := 0, nic := 0, lb := [0], ub := [1], fitness := fun _ => some [0] }

/-- A problem whose fitness evaluation always fails (user code throwing). -/
def bad_problem : problem :=
  { nobj := 1, nec := 0, nic := 0, lb := [0], ub := [1], fitness := fun _ => none }

/-- An empty population over ok_problem. -/
def ok_pop : population :=
  { m_prob := ok_problem, m_ID := [], m_x := [], m_f := [],
    m_e := { seed := 0, count := 0 }, m_seed := 0 }

/-- An empty population over bad_problem. -/
def bad_pop : population :=
  { m_prob := bad_problem, m_ID := [], m_x := [], m_f := [],
    m_e := { seed := 0, count := 0 }, m_seed := 0 }

/-- A concrete draw function for the engine model. -/
def z_draw : Nat → Nat → Nat := fun _ _ => 7

/-- A concrete within-bounds sampler: always return the lower bound vector. -/
def lb_sample : Vec × Vec → Nat → Vec := fun b _ => b.1

/-- C1: a successful push_back(x) grows the population by exactly one individual;
the appended individual carries x, the fitness computed by the problem on x, and an
id freshly drawn from the internal engine, while the previously stored ids,
decision vectors and fitness vectors are unchanged. -/
theorem push_back_appends_individual (g : Nat → Nat → Nat) (pop : population) (x : Vec)
    (h : (pop.push_back g x).1 = .ok ()) :
    ((pop.push_back g x).2).size = pop.size + 1 ∧
    ((pop.push_back g x).2).get_ID = pop.get_ID ++ [g pop.m_e.seed pop.m_e.count] ∧
    ((pop.push_back g x).2).get_x = pop.get_x ++ [x] ∧
    ∃ f, pop.m_prob.fitness x = some f ∧
      ((pop.push_back g x).2).get_f = pop.get_f ++ [f] := by
  cases hf : pop.m_prob.fitness x with
  | none =>
    simp only [population.push_back, engine.next, hf] at h
    exact Except.noConfusion h
  | some f =>
    by_cases hx : x.length ≠ pop.m_prob.get_nx
    · simp only [population.push_back, engine.next, hf, if_pos hx] at h
      exact Except.noConfusion h
    · by_cases hff : f.length ≠ pop.m_prob.get_nf
      · simp only [population.push_back, engine.next, hf, if_neg hx, if_pos hff] at h
        exact Except.noConfusion h
      · refine ⟨?_, ?_, ?_, f, rfl, ?_⟩ <;>
          simp [population.push_back, engine.next, hf, if_neg hx, if_neg hff,
            population.size, population.get_ID, population.get_x, population.get_f]

/-- Witness for C1 at a concrete population and decision vector. -/
theorem push_back_appends_individual_witness :
    ((ok_pop.push_back z_draw [2]).2).size = ok_pop.size + 1 ∧
    ((ok_pop.push_back z_draw [2]).2).get_x = ok_pop.get_x ++ [[2]] :=
  ⟨(push_back_appends_individual z_draw ok_pop [2] rfl).1,
   (push_back_appends_individual z_draw ok_pop [2] rfl).2.2.1⟩

/-- C2 (amended): when problem::fitness(x) returns normally, push_back(x) fails with
DimensionMismatch exactly when the decision vector or the computed fitness vector
has the wrong dimension; when problem::fitness throws, that failure propagates
instead.  On any failure the stored ids, decision vectors and fitness vectors are
left equal to their pre-call values. -/
theorem push_back_failure_spec (g : Nat → Nat → Nat) (pop : population) (x : Vec) :
    (∀ f, pop.m_prob.fitness x = some f →
      ((pop.push_back g x).1 = .error .DimensionMismatch ↔
        (x.length ≠ pop.m_prob.get_nx ∨ f.length ≠ pop.m_prob.get_nf))) ∧
    (pop.m_prob.fitness x = none → (pop.push_back g x).1 = .error .UserFailure) ∧
    (∀ e, (pop.push_back g x).1 = .error e →
      ((pop.push_back g x).2.get_ID = pop.get_ID ∧
       (pop.push_back g x).2.get_x = pop.get_x ∧
       (pop.push_back g x).2.get_f = pop.get_f)) := by
  cases hf : pop.m_prob.fitness x with
  | none =>
    refine ⟨fun f hsome => Option.noConfusion hsome, fun _ => ?_, fun e _ => ?_⟩
    · simp only [population.push_back, engine.next, hf]
    · simp only [population.push_back, engine.next, hf]
      exact ⟨rfl, rfl, rfl⟩
  | some f =>
    refine ⟨fun f' hsome => ?_, fun hnone => Option.noConfusion hnone, fun e he => ?_⟩
    · cases hsome
      by_cases hx : x.length ≠ pop.m_prob.get_nx
      · simp only [population.push_back, engine.next, hf, if_pos hx]
        exact ⟨fun _ => Or.inl hx, fun _ => trivial⟩
      · by_cases hff : f.length ≠ pop.m_prob.get_nf
        · simp only [population.push_back, engine.next, hf, if_neg hx, if_pos hff]
          exact ⟨fun _ => Or.inr hff, fun _ => trivial⟩
        · simp only [population.push_back, engine.next, hf, if_neg hx, if_neg hff]
          constructor
          · intro hcontra
            exact Except.noConfusion hcontra
          · intro hor
            rcases hor with h1 | h1
            · exact absurd h1 hx
            · exact absurd h1 hff
    · by_cases hx : x.length ≠ pop.m_prob.get_nx
      · simp only [population.push_back, engine.next, hf, if_pos hx]
        exact ⟨rfl, rfl, rfl⟩
      · by_cases hff : f.length ≠ pop.m_prob.get_nf
        · simp only [population.push_back, engine.next, hf, if_neg hx, if_pos hff]
          exact ⟨rfl, rfl, rfl⟩
        · simp only [population.push_back, engine.next, hf, if_neg hx, if_neg hff] at he
          exact Except.noConfusion he

/-- Witness for the amended C2: a concrete dimension mismatch is reported as
DimensionMismatch, and the failed call leaves the stored sequences unchanged. -/
theorem push_back_failure_spec_witness :
    (ok_pop.push_back z_draw []).1 = .error .DimensionMismatch ∧
    (ok_pop.push_back z_draw []).2.get_ID = ok_pop.get_ID := by
  have h := push_back_failure_spec z_draw ok_pop []
  have hdim : (ok_pop.push_back z_draw []).1 = .error .DimensionMismatch :=
    (h.1 [0] rfl).2 (Or.inl (by decide))
  exact ⟨hdim, (h.2.2 _ hdim).1⟩

/-- Counterexample to C2 as stated: on bad_pop the decision vector [] has the wrong
dimension, yet push_back does not fail with DimensionMismatch, because the fitness
evaluation runs before the dimension checks and its failure propagates first. -/
theorem push_back_dim_iff_refuted :
    (bad_pop.push_back z_draw []).1 = .error .UserFailure ∧
    (bad_pop.push_back z_draw []).1 ≠ .error .DimensionMismatch ∧
    ([] : Vec).length ≠ bad_pop.m_prob.get_nx := by
  refine ⟨rfl, ?_, by decide⟩
  intro hcontra
  have h1 : (Except.error popError.UserFailure : Except popError Unit)
      = .error .DimensionMismatch := by
    rw [← hcontra]
    rfl
  cases h1

end PushBackTheorems

section InvariantTheorems

lemma push_back_invariant (g : Nat → Nat → Nat) (pop : population) (x : Vec)
    (h : pop.invariant) : ((pop.push_back g x).2).invariant := by
  obtain ⟨h1, h2, h3, h4⟩ := h
  cases hf : pop.m_prob.fitness x with
  | none =>
    simp only [population.push_back, engine.next, hf]
    exact ⟨h1, h2, h3, h4⟩
  | some f =>
    by_cases hx : x.length ≠ pop.m_prob.get_nx
    · simp only [population.push_back, engine.next, hf, if_pos hx]
      exact ⟨h1, h2, h3, h4⟩
    · by_cases hff : f.length ≠ pop.m_prob.get_nf
      · simp only [population.push_back, engine.next, hf, if_neg hx, if_pos hff]
        exact ⟨h1, h2, h3, h4⟩
      · simp only [population.push_back, engine.next, hf, if_neg hx, if_neg hff]
        rw [not_not] at hx hff
        refine ⟨?_, ?_, ?_, ?_⟩
        · simp only [population.invariant, List.length_append, List.length_cons,
            List.length_nil, h1]
        · simp only [population.invariant, List.length_append, List.length_cons,
            List.length_nil, h2]
        · intro v hv
          rcases List.mem_append.mp hv with hv | hv
          · exact h3 v hv
          · rw [List.mem_singleton.mp hv]
            exact hx
        · intro v hv
          rcases List.mem_append.mp hv with hv | hv
          · exact h4 v hv
          · rw [List.mem_singleton.mp hv]
            exact hff

lemma set_xf_invariant (pop : population) (i : Nat) (x f : Vec)
    (h : pop.invariant) : ((pop.set_xf i x f).2).invariant := by
  obtain ⟨h1, h2, h3, h4⟩ := h
  by_cases hi : pop.size ≤ i
  · simp only [population.set_xf, if_pos hi]
    exact ⟨h1, h2, h3, h4⟩
  · by_cases hff : f.length ≠ pop.m_prob.get_nf
    · simp only [population.set_xf, if_neg hi, if_pos hff]
      exact ⟨h1, h2, h3, h4⟩
    · by_cases hx : x.length ≠ pop.m_prob.get_nx
      · simp only [population.set_xf, if_neg hi, if_pos hx, if_neg hff]
        exact ⟨h1, h2, h3, h4⟩
      · simp only [population.set_xf, if_neg hi, if_neg hx, if_neg hff]
        rw [not_not] at hx hff
        have hilt : i < pop.m_x.length := by
          simp only [population.size, not_le] at hi
          omega
        have hilt2 : i < pop.m_f.length := by
          simp only [population.size, not_le] at hi
          omega
        refine ⟨by simpa using h1, by simpa using h2, ?_, ?_⟩
        · intro v hv
          rcases List.mem_or_eq_of_mem_set hv with hv | hv
          · exact h3 v hv
          · subst hv
            have hmem : pop.m_x.getD i [] ∈ pop.m_x := by
              rw [List.getD_eq_getElem _ _ hilt]
              exact List.getElem_mem hilt
            have hlen : (pop.m_x.getD i []).length = pop.m_prob.get_nx := h3 _ hmem
            show (x ++ (pop.m_x.getD i []).drop x.length).length = pop.m_prob.get_nx
            rw [List.length_append, List.length_drop, hlen, hx]
            omega
        · intro v hv
          rcases List.mem_or_eq_of_mem_set hv with hv | hv
          · exact h4 v hv
          · subst hv
            have hmem : pop.m_f.getD i [] ∈ pop.m_f := by
              rw [List.getD_eq_getElem _ _ hilt2]
              exact List.getElem_mem hilt2
            have hlen : (pop.m_f.getD i []).length = pop.m_prob.get_nf := h4 _ hmem
            show (f ++ (pop.m_f.getD i []).drop f.length).length = pop.m_prob.get_nf
            rw [List.length_append, List.length_drop, hlen, hff]
            omega

lemma set_x_invariant (pop : population) (i : Nat) (x : Vec)
    (h : pop.invariant) : ((pop.set_x i x).2).invariant := by
  cases hf : pop.m_prob.fitness x with
  | none =>
    simp only [population.set_x, hf]
    exact h
  | some f =>
    simp only [population.set_x, hf]
    exact set_xf_invariant pop i x f h

lemma construct_loop_invariant (g : Nat → Nat → Nat) (dv : Vec × Vec → Nat → Vec) :
    ∀ (n : Nat) (pop res : population), construct_loop g dv n pop = some res →
      pop.invariant → res.invariant := by
  intro n
  induction n with
  | zero =>
    intro pop res h hinv
    simp only [construct_loop, Option.some.injEq] at h
    rw [← h]
    exact hinv
  | succ k ih =>
    intro pop res h hinv
    simp only [construct_loop] at h
    set xp := pop.decision_vector g dv with hxp
    rcases hpb : xp.2.push_back g xp.1 with ⟨r, pop2⟩
    rw [hpb] at h
    cases r with
    | ok u =>
      refine ih pop2 res h ?_
      have hinv2 : xp.2.invariant := by
        rw [hxp]
        simp only [population.decision_vector, engine.next]
        exact hinv
      have := push_back_invariant g xp.2 xp.1 hinv2
      rw [hpb] at this
      exact this
    | error e => exact Option.noConfusion h

/-- The empty population handed to the constructor loop satisfies the invariant. -/
lemma construct_init_invariant (p : problem) (seed : Nat) :
    population.invariant
      { m_prob := p, m_ID := [], m_x := [], m_f := [],
        m_e := { seed := seed, count := 0 }, m_seed := seed } := by
  refine ⟨rfl, rfl, ?_, ?_⟩ <;> intro v hv <;> exact absurd hv (List.not_mem_nil v)

/-- C3: the population invariant (aligned id / decision vector / fitness sequences,
every stored decision vector of dimension nx and every stored fitness vector of
dimension nf) is established by the constructor from (problem, size, seed) and
preserved by push_back, set_xf and set_x, whether they succeed or fail. -/
theorem population_invariant_preserved :
    (∀ (g : Nat → Nat → Nat) (dv : Vec × Vec → Nat → Vec) (p : problem)
       (n seed : Nat) (pop : population),
        population.construct g dv p n seed = some pop → pop.invariant) ∧
    (∀ (g : Nat → Nat → Nat) (pop : population) (x : Vec),
        pop.invariant → ((pop.push_back g x).2).invariant) ∧
    (∀ (pop : population) (i : Nat) (x f : Vec),
        pop.invariant → ((pop.set_xf i x f).2).invariant) ∧
    (∀ (pop : population) (i : Nat) (x : Vec),
        pop.invariant → ((pop.set_x i x).2).invariant) := by
  refine ⟨?_, push_back_invariant, set_xf_invariant, set_x_invariant⟩
  intro g dv p n seed pop h
  exact construct_loop_invariant g dv n _ pop h (construct_init_invariant p seed)

/-- Witness for C3 at a concrete constructed population and concrete setter calls. -/
theorem population_invariant_preserved_witness :
    (∀ pop, population.construct z_draw lb_sample ok_problem 2 11 = some pop →
        pop.invariant) ∧
    ((ok_pop.set_xf 0 [] []).2).invariant :=
  ⟨fun pop h => population_invariant_preserved.1 z_draw lb_sample ok_problem 2 11 pop h,
   population_invariant_preserved.2.2.1 ok_pop 0 [] [] (by decide)⟩

end InvariantTheorems

section SetterTheorems

/-- A one-individual population over ok_problem, for the setter witnesses. -/
def one_pop : population :=
  { m_prob := ok_problem, m_ID := [5], m_x := [[0]], m_f := [[0]],
    m_e := { seed := 0, count := 0 }, m_seed := 0 }

/-- C6: on a valid index and vectors of the right dimensions, set_xf(i, x, f)
succeeds, overwrites exactly individual i's decision and fitness vectors, preserves
all ids (hence individual i's id), the problem handle and the population size,
leaves every other individual untouched, and never invokes problem::fitness (its
outcome is unchanged under an arbitrary replacement of the fitness evaluator). -/
theorem set_xf_overwrites_in_place (pop : population) (i : Nat) (x f : Vec)
    (hinv : pop.invariant) (hi : i < pop.size)
    (hx : x.length = pop.m_prob.get_nx) (hf : f.length = pop.m_prob.get_nf) :
    (pop.set_xf i x f).1 = .ok () ∧
    (pop.set_xf i x f).2.get_ID = pop.get_ID ∧
    (pop.set_xf i x f).2.get_problem = pop.get_problem ∧
    (pop.set_xf i x f).2.size = pop.size ∧
    (pop.set_xf i x f).2.get_x = pop.m_x.set i x ∧
    (pop.set_xf i x f).2.get_f = pop.m_f.set i f ∧
    (pop.set_xf i x f).2.m_x[i]? = some x ∧
    (pop.set_xf i x f).2.m_f[i]? = some f ∧
    (∀ j, j ≠ i → (pop.set_xf i x f).2.m_x[j]? = pop.m_x[j]? ∧
                  (pop.set_xf i x f).2.m_f[j]? = pop.m_f[j]?) ∧
    (∀ fn, ({ pop with m_prob := pop.m_prob.with_fitness fn } : population).set_xf i x f
        = ((pop.set_xf i x f).1,
           { (pop.set_xf i x f).2 with m_prob := pop.m_prob.with_fitness fn })) := by
  obtain ⟨h1, h2, h3, h4⟩ := hinv
  have hile : ¬pop.size ≤ i := not_le.mpr hi
  have hxlt : i < pop.m_x.length := by
    simp only [population.size] at hi
    omega
  have hflt : i < pop.m_f.length := by
    simp only [population.size] at hi
    omega
  have hdx : x ++ (pop.m_x.getD i []).drop x.length = x := by
    have hlen : (pop.m_x.getD i []).length = pop.m_prob.get_nx := by
      refine h3 _ ?_
      rw [List.getD_eq_getElem _ _ hxlt]
      exact List.getElem_mem hxlt
    rw [hx, ← hlen, List.drop_length, List.append_nil]
  have hdf : f ++ (pop.m_f.getD i []).drop f.length = f := by
    have hlen : (pop.m_f.getD i []).length = pop.m_prob.get_nf := by
      refine h4 _ ?_
      rw [List.getD_eq_getElem _ _ hflt]
      exact List.getElem_mem hflt
    rw [hf, ← hlen, List.drop_length, List.append_nil]
  have hkey : pop.set_xf i x f =
      (.ok (), { pop with m_x := pop.m_x.set i x, m_f := pop.m_f.set i f }) := by
    simp only [population.set_xf, if_neg hile, if_neg (not_not_intro hf),
      if_neg (not_not_intro hx), hdx, hdf]
  rw [hkey]
  refine ⟨rfl, rfl, rfl, rfl, rfl, rfl, ?_, ?_, ?_, ?_⟩
  · exact List.getElem?_set_eq_of_lt x hxlt
  · exact List.getElem?_set_eq_of_lt f hflt
  · intro j hj
    exact ⟨List.getElem?_set_ne (Ne.symm hj), List.getElem?_set_ne (Ne.symm hj)⟩
  · intro fn
    have hile2 : ¬pop.m_ID.length ≤ i := hile
    have hf2 : ¬f.length ≠ pop.m_prob.nobj + pop.m_prob.nec + pop.m_prob.nic :=
      not_not_intro hf
    have hx2 : ¬x.length ≠ pop.m_prob.lb.length := not_not_intro hx
    simp only [population.set_xf, problem.with_fitness, population.size, problem.get_nf,
      problem.get_nx, if_neg hile2, if_neg hf2, if_neg hx2, hdx, hdf]

/-- Witness for C6 at a concrete one-individual population. -/
theorem set_xf_overwrites_in_place_witness :
    (one_pop.set_xf 0 [1] [2]).1 = .ok () ∧
    (one_pop.set_xf 0 [1] [2]).2.get_ID = one_pop.get_ID ∧
    (one_pop.set_xf 0 [1] [2]).2.m_x[0]? = some [1] :=
  have h := set_xf_overwrites_in_place one_pop 0 [1] [2] (by decide) (by decide)
    (by decide) (by decide)
  ⟨h.1, h.2.1, h.2.2.2.2.2.2.1⟩

/-- C7: set_x(i, x) coincides with the composite set_both(i, x, problem.fitness(x)):
it yields the same success or failure and the same final population state, including
when the fitness evaluation itself fails. -/
theorem set_x_eq_set_both_of_x (pop : population) (i : Nat) (x : Vec) :
    pop.set_x i x = set_both_of_x pop i x := rfl

end SetterTheorems

section ChampionTheorems

lemma vec_lt_singleton (a b : ℚ) : vec_lt [a] [b] = decide (a < b) := by
  by_cases h : a < b
  · simp [vec_lt, h]
  · by_cases h2 : b < a
    · simp [vec_lt, h, h2]
    · simp [vec_lt, h, h2]

lemma length_one_eq_headD (l : Vec) (h : l.length = 1) : l = [l.headD 0] := by
  cases l with
  | nil => exact absurd h (by simp)
  | cons a t =>
    cases t with
    | nil => rfl
    | cons b t2 => exact absurd h (by simp)

lemma foldl_min_spec (key : Nat → ℚ) (lt : Nat → Nat → Bool) :
    ∀ (l : List Nat) (a : Nat),
      (∀ i j, i ∈ a :: l → j ∈ a :: l → (lt i j = true ↔ key i < key j)) →
      l.foldl (fun m i => if lt i m then i else m) a ∈ a :: l ∧
        ∀ x ∈ a :: l, key (l.foldl (fun m i => if lt i m then i else m) a) ≤ key x := by
  intro l
  induction l with
  | nil =>
    intro a _
    refine ⟨List.mem_cons_self a [], ?_⟩
    intro x hx
    rcases List.mem_cons.mp hx with h | h
    · rw [h]
      exact le_refl _
    · exact absurd h (List.not_mem_nil x)
  | cons b t ih =>
    intro a hagree
    have hfold : (b :: t).foldl (fun m i => if lt i m then i else m) a
        = t.foldl (fun m i => if lt i m then i else m) (if lt b a then b else a) := rfl
    have hmemba : (if lt b a then b else a) ∈ a :: b :: t := by
      by_cases h : lt b a
      · simp [h]
      · simp [h]
    have hsub : ∀ z, z ∈ (if lt b a then b else a) :: t → z ∈ a :: b :: t := by
      intro z hz
      rcases List.mem_cons.mp hz with h | h
      · rw [h]
        exact hmemba
      · exact List.mem_cons.mpr (Or.inr (List.mem_cons.mpr (Or.inr h)))
    have hagree' : ∀ i j, i ∈ (if lt b a then b else a) :: t →
        j ∈ (if lt b a then b else a) :: t → (lt i j = true ↔ key i < key j) :=
      fun i j hi hj => hagree i j (hsub i hi) (hsub j hj)
    obtain ⟨hmem, hmin⟩ := ih (if lt b a then b else a) hagree'
    rw [hfold]
    refine ⟨hsub _ hmem, ?_⟩
    intro x hx
    have hstep : key (t.foldl (fun m i => if lt i m then i else m) (if lt b a then b else a))
        ≤ key (if lt b a then b else a) := hmin _ (List.mem_cons_self _ _)
    have hab : key (if lt b a then b else a) ≤ key a
        ∧ key (if lt b a then b else a) ≤ key b := by
      by_cases h : lt b a
      · rw [if_pos h]
        exact ⟨le_of_lt ((hagree b a (by simp) (by simp)).mp h), le_refl _⟩
      · rw [if_neg h]
        refine ⟨le_refl _, ?_⟩
        have hnlt : ¬key b < key a :=
          fun hlt => absurd ((hagree b a (by simp) (by simp)).mpr hlt) h
        exact le_of_not_lt hnlt
    rcases List.mem_cons.mp hx with h | h
    · rw [h]
      exact le_trans hstep hab.1
    · rcases List.mem_cons.mp h with h2 | h2
      · rw [h2]
        exact le_trans hstep hab.2
      · exact hmin x (List.mem_cons.mpr (Or.inr h2))

lemma insert_by_length (lt : α → α → Bool) (a : α) (l : List α) :
    (insert_by lt a l).length = l.length + 1 := by
  induction l with
  | nil => rfl
  | cons b t ih =>
    simp only [insert_by]
    by_cases h : lt a b
    · simp [h]
    · simp [h, ih]

lemma sort_by_length (lt : α → α → Bool) (l : List α) :
    (sort_by lt l).length = l.length := by
  induction l with
  | nil => rfl
  | cons b t ih => simp [sort_by, insert_by_length, ih]

/-- C5: champion(tol) fails, with InvalidOperation, exactly when the population is
empty or the problem is multi-objective; on a non-empty population of a
single-objective problem it returns an index normally. -/
theorem champion_failure_spec (pop : population) (tol : Vec) :
    (pop.size = 0 ∨ 1 < pop.m_prob.get_nobj →
      pop.champion tol = .error .InvalidOperation) ∧
    (pop.size ≠ 0 → pop.m_prob.get_nobj ≤ 1 → ∃ i, pop.champion tol = .ok i) := by
  constructor
  · intro h
    rcases h with h | h
    · simp [population.champion, h]
    · by_cases hz : pop.size = 0
      · simp [population.champion, hz]
      · simp [population.champion, hz, h]
  · intro hz hobj
    have hno : ¬1 < pop.m_prob.get_nobj := not_lt.mpr hobj
    by_cases hc : 0 < pop.m_prob.get_nc
    · refine ⟨(sort_population_con pop.m_f pop.m_prob.get_nec tol).headD 0, ?_⟩
      simp [population.champion, hz, hno, hc]
    · refine ⟨min_element (fun i j => vec_lt (pop.m_f.getD i []) (pop.m_f.getD j []))
        (List.range pop.size), ?_⟩
      simp [population.champion, hz, hno, hc]

/-- Witness for C5: the champion of a concrete empty population fails with
InvalidOperation, and the champion of a concrete one-individual single-objective
population returns normally. -/
theorem champion_failure_spec_witness :
    ok_pop.champion [] = .error .InvalidOperation ∧ ∃ i, one_pop.champion [] = .ok i :=
  ⟨(champion_failure_spec ok_pop []).1 (Or.inl (by decide)),
   (champion_failure_spec one_pop []).2 (by decide) (by decide)⟩

/-- C4: on a non-empty population of a single-objective unconstrained problem,
champion(tol) returns an index of an individual whose first fitness component is
minimal among all individuals. -/
theorem champion_minimizes_unconstrained (pop : population) (tol : Vec)
    (hinv : pop.invariant) (hz : pop.size ≠ 0) (hobj : pop.m_prob.get_nobj = 1)
    (hec : pop.m_prob.get_nec = 0) (hic : pop.m_prob.get_nic = 0) :
    ∃ i, pop.champion tol = .ok i ∧ i < pop.size ∧
      ∀ j, j < pop.size → (pop.m_f.getD i []).headD 0 ≤ (pop.m_f.getD j []).headD 0 := by
  obtain ⟨h1, h2, h3, h4⟩ := hinv
  have hanec : pop.m_prob.nec = 0 := hec
  have hanic : pop.m_prob.nic = 0 := hic
  have hanobj : pop.m_prob.nobj = 1 := hobj
  have hnc : ¬0 < pop.m_prob.get_nc := by
    simp only [problem.get_nc, hanec, hanic]
    omega
  have hnobj : ¬1 < pop.m_prob.get_nobj := by
    rw [hobj]
    exact lt_irrefl 1
  have hnf : pop.m_prob.get_nf = 1 := by
    simp only [problem.get_nf, hanec, hanic, hanobj]
  have hflen : ∀ j, j < pop.size → pop.m_f.getD j [] = [(pop.m_f.getD j []).headD 0] := by
    intro j hj
    apply length_one_eq_headD
    have hjlt : j < pop.m_f.length := by
      simp only [population.size] at hj
      omega
    rw [List.getD_eq_getElem _ _ hjlt, ← hnf]
    exact h4 _ (List.getElem_mem hjlt)
  have hch : pop.champion tol = .ok (min_element
      (fun i j => vec_lt (pop.m_f.getD i []) (pop.m_f.getD j [])) (List.range pop.size)) := by
    simp only [population.champion, if_neg hz, if_neg hnobj, if_neg hnc]
  obtain ⟨k, hk⟩ : ∃ k, pop.size = k + 1 := ⟨pop.size - 1, by omega⟩
  have hmemiff : ∀ z, z ∈ (0 : Nat) :: List.map Nat.succ (List.range k) ↔ z < pop.size := by
    intro z
    rw [← List.range_succ_eq_map, ← hk]
    exact List.mem_range
  have hagree : ∀ i j, i ∈ (0 : Nat) :: List.map Nat.succ (List.range k) →
      j ∈ (0 : Nat) :: List.map Nat.succ (List.range k) →
      (vec_lt (pop.m_f.getD i []) (pop.m_f.getD j []) = true ↔
        (pop.m_f.getD i []).headD 0 < (pop.m_f.getD j []).headD 0) := by
    intro i j hi hj
    conv_lhs => rw [hflen i ((hmemiff i).mp hi), hflen j ((hmemiff j).mp hj)]
    rw [vec_lt_singleton]
    simp
  obtain ⟨hmem, hmin⟩ := foldl_min_spec (fun j => (pop.m_f.getD j []).headD 0)
    (fun i j => vec_lt (pop.m_f.getD i []) (pop.m_f.getD j []))
    (List.map Nat.succ (List.range k)) 0 hagree
  have hmin_el : min_element
      (fun i j => vec_lt (pop.m_f.getD i []) (pop.m_f.getD j [])) (List.range pop.size)
      = (List.map Nat.succ (List.range k)).foldl
          (fun m i => if vec_lt (pop.m_f.getD i []) (pop.m_f.getD m []) then i else m) 0 := by
    rw [hk, List.range_succ_eq_map]
    rfl
  refine ⟨_, hch, ?_, ?_⟩
  · rw [hmin_el]
    exact (hmemiff _).mp hmem
  · intro j hj
    rw [hmin_el]
    exact hmin j ((hmemiff j).mpr hj)

/-- A concrete two-individual population whose second individual has the smaller
fitness. -/
def two_pop : population :=
  { m_prob := ok_problem, m_ID := [1, 2], m_x := [[0], [1]], m_f := [[5], [3]],
    m_e := { seed := 0, count := 0 }, m_seed := 0 }

/-- Witness for C4 at a concrete two-individual population. -/
theorem champion_minimizes_unconstrained_witness :
    ∃ i, two_pop.champion [] = .ok i ∧ i < two_pop.size ∧
      ∀ j, j < two_pop.size →
        (two_pop.m_f.getD i []).headD 0 ≤ (two_pop.m_f.getD j []).headD 0 :=
  champion_minimizes_unconstrained two_pop [] (by decide) (by decide) (by decide)
    (by decide) (by decide)

end ChampionTheorems

section DeterminismTheorems

/-- C8: constructing a population twice from the same problem, size and seed yields
identical id sequences and identical decision-vector sequences; the construction is
a pure function of its inputs, the engine draws being determined by the seed. -/
theorem construct_deterministic (g : Nat → Nat → Nat) (dv : Vec × Vec → Nat → Vec)
    (p : problem) (n seed : Nat) (pop1 pop2 : population)
    (h1 : population.construct g dv p n seed = some pop1)
    (h2 : population.construct g dv p n seed = some pop2) :
    pop1.get_ID = pop2.get_ID ∧ pop1.get_x = pop2.get_x := by
  rw [h1] at h2
  cases h2
  exact ⟨rfl, rfl⟩

/-- The population obtained by constructing one individual over ok_problem with
seed 3, written out explicitly. -/
def det_pop : population :=
  { m_prob := ok_problem, m_ID := [7], m_x := [[0]], m_f := [[0]],
    m_e := { seed := 3, count := 2 }, m_seed := 3 }

/-- Witness for C8 at a concrete constructor call that succeeds. -/
theorem construct_deterministic_witness :
    det_pop.get_ID = det_pop.get_ID ∧ det_pop.get_x = det_pop.get_x :=
  construct_deterministic z_draw lb_sample ok_problem 1 3 det_pop det_pop rfl rfl

end DeterminismTheorems

section ArchipelagoSeedTheorems

lemma M32_pos : 0 < M32 := by
  simp only [M32]
  positivity

lemma mt_init_lt (seed : Nat) : ∀ i, mt_init seed i < M32 := by
  intro i
  cases i with
  | zero => exact Nat.mod_lt _ M32_pos
  | succ k =>
    simp only [mt_init]
    exact Nat.mod_lt _ M32_pos

lemma xor_lt_M32 {x y : Nat} (hx : x < M32) (hy : y < M32) : x ^^^ y < M32 := by
  have hx2 : x < 2 ^ 32 := hx
  have hy2 : y < 2 ^ 32 := hy
  exact Nat.xor_lt_two_pow hx2 hy2

lemma mt_state_list_length (seed : Nat) : ∀ n, (mt_state_list seed n).length = n := by
  intro n
  induction n with
  | zero => rfl
  | succ m ih =>
    simp only [mt_state_list, List.length_append, List.length_cons, List.length_nil, ih]

lemma mt_state_list_mem_lt (seed : Nat) : ∀ n, ∀ z ∈ mt_state_list seed n, z < M32 := by
  intro n
  induction n with
  | zero =>
    intro z hz
    exact absurd hz (List.not_mem_nil z)
  | succ m ih =>
    intro z hz
    simp only [mt_state_list] at hz
    rcases List.mem_append.mp hz with h | h
    · exact ih z h
    · rw [List.mem_singleton.mp h]
      by_cases hlt : m < 624
      · rw [if_pos hlt]
        exact mt_init_lt seed m
      · rw [if_neg hlt]
        have hgetD : ∀ k, (mt_state_list seed m).getD k 0 < M32 := by
          intro k
          by_cases hk : k < (mt_state_list seed m).length
          · rw [List.getD_eq_getElem _ _ hk]
            exact ih _ (List.getElem_mem hk)
          · rw [List.getD_eq_default _ _ (le_of_not_lt hk)]
            exact M32_pos
        have h31 : (2 : Nat) ^ 31 = 2147483648 := by norm_num
        have h32 : M32 = 4294967296 := by norm_num [M32]
        have ha2 : (mt_state_list seed m).getD (m - 624) 0 < 4294967296 :=
          h32 ▸ hgetD (m - 624)
        have hb2 : (mt_state_list seed m).getD (m - 623) 0 < 4294967296 :=
          h32 ▸ hgetD (m - 623)
        have hy : (mt_state_list seed m).getD (m - 624) 0 / 2 ^ 31 * 2 ^ 31
            + (mt_state_list seed m).getD (m - 623) 0 % 2 ^ 31 < M32 := by
          rw [h31, h32]
          omega
        refine xor_lt_M32 (hgetD (m - 227)) (xor_lt_M32 ?_ ?_)
        · exact lt_of_le_of_lt (Nat.div_le_self _ 2) hy
        · split
          · rw [h32]
            norm_num
          · exact M32_pos

lemma mt_raw_lt (seed : Nat) : ∀ i, mt_raw seed i < M32 := by
  intro i
  have hlen : (mt_state_list seed (i + 1)).length = i + 1 := mt_state_list_length seed (i + 1)
  have hilt : i < (mt_state_list seed (i + 1)).length := by omega
  show (mt_state_list seed (i + 1)).getD i 0 < M32
  rw [List.getD_eq_getElem _ _ hilt]
  exact mt_state_list_mem_lt seed (i + 1) _ (List.getElem_mem hilt)

lemma mt_temper_lt {y0 : Nat} (h : y0 < M32) : mt_temper y0 < M32 := by
  have hs : ∀ z : Nat, z < M32 → ∀ k : Nat, z >>> k < M32 := by
    intro z hz k
    calc z >>> k = z / 2 ^ k := Nat.shiftRight_eq_div_pow z k
    _ ≤ z := Nat.div_le_self z (2 ^ k)
    _ < M32 := hz
  have h1 : y0 ^^^ (y0 >>> 11) < M32 := xor_lt_M32 h (hs _ h 11)
  have h2 : y0 ^^^ (y0 >>> 11) ^^^ (((y0 ^^^ (y0 >>> 11)) <<< 7) % M32 &&& 2636928640)
      < M32 := by
    refine xor_lt_M32 h1 ?_
    calc ((y0 ^^^ (y0 >>> 11)) <<< 7) % M32 &&& 2636928640
        ≤ ((y0 ^^^ (y0 >>> 11)) <<< 7) % M32 := Nat.and_le_left
    _ < M32 := Nat.mod_lt _ M32_pos
  have h3 : (y0 ^^^ (y0 >>> 11) ^^^ (((y0 ^^^ (y0 >>> 11)) <<< 7) % M32 &&& 2636928640))
      ^^^ (((y0 ^^^ (y0 >>> 11) ^^^ (((y0 ^^^ (y0 >>> 11)) <<< 7) % M32 &&& 2636928640))
        <<< 15) % M32 &&& 4022730752) < M32 := by
    refine xor_lt_M32 h2 ?_
    calc ((y0 ^^^ (y0 >>> 11) ^^^ (((y0 ^^^ (y0 >>> 11)) <<< 7) % M32 &&& 2636928640))
        <<< 15) % M32 &&& 4022730752
        ≤ ((y0 ^^^ (y0 >>> 11) ^^^ (((y0 ^^^ (y0 >>> 11)) <<< 7) % M32 &&& 2636928640))
            <<< 15) % M32 := Nat.and_le_left
    _ < M32 := Nat.mod_lt _ M32_pos
  simp only [mt_temper]
  exact xor_lt_M32 h3 (hs _ h3 18)

lemma mt_output_lt (seed j : Nat) : mt_output seed j < M32 :=
  mt_temper_lt (mt_raw_lt seed (624 + j))

attribute [irreducible] mt_state_list mt_raw mt_temper mt_init mt_output

lemma n_ctor_seed_loop_length (e : mt19937) : ∀ k, (n_ctor_seed_loop e k).length = k := by
  intro k
  induction k generalizing e with
  | zero => rfl
  | succ m ih =>
    simp only [n_ctor_seed_loop, List.length_cons]
    rw [ih]

lemma n_ctor_seed_loop_mem_lt (e : mt19937) :
    ∀ k, ∀ z ∈ n_ctor_seed_loop e k, z < M32 := by
  intro k
  induction k generalizing e with
  | zero =>
    intro z hz
    exact absurd hz (List.not_mem_nil z)
  | succ m ih =>
    intro z hz
    rcases List.mem_cons.mp hz with h | h
    · rw [h]
      exact mt_output_lt e.seed e.count
    · exact ih _ z h

lemma n_ctor_seed_loop_getD (e : mt19937) :
    ∀ k i, i < k → (n_ctor_seed_loop e k).getD i 0 = mt_output e.seed (e.count + i) := by
  intro k
  induction k generalizing e with
  | zero =>
    intro i hi
    exact absurd hi (Nat.not_lt_zero i)
  | succ m ih =>
    intro i hi
    cases i with
    | zero =>
      simp only [n_ctor_seed_loop, mt19937.next, List.getD]
      rfl
    | succ j =>
      have hstep : (n_ctor_seed_loop e (m + 1)).getD (j + 1) 0
          = (n_ctor_seed_loop (mt19937.next e).2 m).getD j 0 := rfl
      rw [hstep, ih _ j (by omega)]
      simp only [mt19937.next]
      congr 1
      omega

lemma push_back_m_seed (g : Nat → Nat → Nat) (pop : population) (x : Vec) :
    ((pop.push_back g x).2).m_seed = pop.m_seed := by
  cases hf : pop.m_prob.fitness x with
  | none => simp only [population.push_back, engine.next, hf]
  | some f =>
    by_cases hx : x.length ≠ pop.m_prob.get_nx
    · simp only [population.push_back, engine.next, hf, if_pos hx]
    · by_cases hff : f.length ≠ pop.m_prob.get_nf
      · simp only [population.push_back, engine.next, hf, if_neg hx, if_pos hff]
      · simp only [population.push_back, engine.next, hf, if_neg hx, if_neg hff]

lemma construct_loop_m_seed (g : Nat → Nat → Nat) (dv : Vec × Vec → Nat → Vec) :
    ∀ (n : Nat) (pop res : population), construct_loop g dv n pop = some res →
      res.m_seed = pop.m_seed := by
  intro n
  induction n with
  | zero =>
    intro pop res h
    simp only [construct_loop, Option.some.injEq] at h
    rw [← h]
  | succ k ih =>
    intro pop res h
    simp only [construct_loop] at h
    rcases hpb : (pop.decision_vector g dv).2.push_back g (pop.decision_vector g dv).1
      with ⟨r, pop2⟩
    rw [hpb] at h
    cases r with
    | ok u =>
      have h2 := ih pop2 res h
      have h3 : pop2.m_seed = (pop.decision_vector g dv).2.m_seed := by
        have h4 := push_back_m_seed g (pop.decision_vector g dv).2 (pop.decision_vector g dv).1
        rw [hpb] at h4
        exact h4
      rw [h2, h3]
      rfl
    | error e => exact Option.noConfusion h

lemma construct_get_seed (g : Nat → Nat → Nat) (dv : Vec × Vec → Nat → Vec)
    (p : problem) (pop_size s : Nat) (pop : population)
    (h : population.construct g dv p pop_size s = some pop) : pop.get_seed = s :=
  construct_loop_m_seed g dv pop_size _ pop h

lemma archi_n_ctor_loop_spec (g : Nat → Nat → Nat) (dv : Vec × Vec → Nat → Vec)
    (p : problem) (pop_size : Nat) :
    ∀ (k : Nat) (e : mt19937) (isls : List population),
      archi_n_ctor_loop g dv p pop_size e k = some isls →
      isls.length = k ∧ isls.map population.get_seed = n_ctor_seed_loop e k := by
  intro k
  induction k with
  | zero =>
    intro e isls h
    simp only [archi_n_ctor_loop, Option.some.injEq] at h
    rw [← h]
    exact ⟨rfl, rfl⟩
  | succ m ih =>
    intro e isls h
    simp only [archi_n_ctor_loop] at h
    rcases hc : population.construct g dv p pop_size (mt19937.next e).1 with _ | pop
    · rw [hc] at h
      exact Option.noConfusion h
    · rw [hc] at h
      rcases htail : archi_n_ctor_loop g dv p pop_size (mt19937.next e).2 m with _ | tail
      · rw [htail] at h
        exact Option.noConfusion h
      · rw [htail] at h
        simp only [Option.map_some', Option.some.injEq] at h
        subst h
        obtain ⟨hl, hm⟩ := ih _ _ htail
        constructor
        · simp only [List.length_cons, hl]
        · simp only [List.map_cons, hm]
          rw [construct_get_seed g dv p pop_size _ pop hc]
          rfl

/-- C9 (amended): the seed supplied to archipelago(n, algo, prob, size, seed) is
used only, after a cast to unsigned, to seed a std::mt19937 meta engine; island i's
population seed is the i-th draw of that engine, so the seed argument itself is not
used as any island's population seed parameter.  Distinctness of the derived seeds
is not guaranteed. -/
theorem archi_n_ctor_seed_derivation (g : Nat → Nat → Nat) (dv : Vec × Vec → Nat → Vec)
    (p : problem) (pop_size n seed : Nat) (isls : List population)
    (h : archi_n_ctor g dv p pop_size n seed = some isls) :
    isls.length = n ∧
    isls.map population.get_seed = n_ctor_seeds seed n ∧
    ∀ i, i < n → (n_ctor_seeds seed n).getD i 0 = mt_output (seed % M32) i := by
  obtain ⟨h1, h2⟩ := archi_n_ctor_loop_spec g dv p pop_size n _ isls h
  refine ⟨h1, h2, ?_⟩
  intro i hi
  have h3 := n_ctor_seed_loop_getD { seed := seed % M32, count := 0 } n i hi
  simpa using h3

/-- The island population produced by a concrete archipelago constructor call with
one island of population size zero and seed 0. -/
def c9_pop : population :=
  { m_prob := ok_problem, m_ID := [], m_x := [], m_f := [],
    m_e := { seed := mt_output (0 % M32) 0, count := 0 },
    m_seed := mt_output (0 % M32) 0 }

/-- Witness for the amended C9 at a concrete constructor call. -/
theorem archi_n_ctor_seed_derivation_witness :
    [c9_pop].length = 1 ∧ [c9_pop].map population.get_seed = n_ctor_seeds 0 1 :=
  ⟨(archi_n_ctor_seed_derivation z_draw lb_sample ok_problem 0 1 0 [c9_pop] rfl).1,
   (archi_n_ctor_seed_derivation z_draw lb_sample ok_problem 0 1 0 [c9_pop] rfl).2.1⟩

/-- Counterexample to C9 as stated: the per-island seeds derived by the meta engine
are 32-bit values, so for an archipelago of 2^32 + 1 islands they cannot be pairwise
distinct; here at seed 0. -/
theorem n_ctor_seeds_not_pairwise_distinct :
    ¬List.Pairwise (· ≠ ·) (n_ctor_seeds 0 (2 ^ 32 + 1)) := by
  intro hp
  have hnd : (n_ctor_seeds 0 (2 ^ 32 + 1)).Nodup := hp
  have hlen : (n_ctor_seeds 0 (2 ^ 32 + 1)).length = 2 ^ 32 + 1 :=
    n_ctor_seed_loop_length { seed := 0 % M32, count := 0 } (2 ^ 32 + 1)
  have hsub : (n_ctor_seeds 0 (2 ^ 32 + 1)).toFinset ⊆ Finset.range (2 ^ 32) := by
    intro z hz
    rw [List.mem_toFinset] at hz
    have hzlt := n_ctor_seed_loop_mem_lt { seed := 0 % M32, count := 0 } (2 ^ 32 + 1) z hz
    exact Finset.mem_range.mpr hzlt
  have hcard := Finset.card_le_card hsub
  rw [List.toFinset_card_of_nodup hnd, hlen, Finset.card_range] at hcard
  omega

end ArchipelagoSeedTheorems

section LoadTheorems

lemma lookup_append_single (m : List (Nat × Nat)) (k v a : Nat) :
    (m ++ [(k, v)]).lookup a
      = match m.lookup a with
        | some w => some w
        | none => if a = k then some v else none := by
  induction m with
  | nil =>
    simp only [List.nil_append, List.lookup]
    by_cases h : a = k
    · simp [h]
    · simp [h, beq_false_of_ne h]
  | cons p t ih =>
    rcases p with ⟨pk, pv⟩
    simp only [List.cons_append, List.lookup]
    by_cases h : a = pk
    · simp [h]
    · simp only [beq_false_of_ne h]
      exact ih

lemma idx_map_build_from_lookup_not_mem (a : Nat) :
    ∀ (addrs : List Nat) (i0 : Nat) (m : List (Nat × Nat)), a ∉ addrs →
      (idx_map_build_from addrs i0 m).lookup a = m.lookup a := by
  intro addrs
  induction addrs with
  | nil =>
    intro i0 m _
    rfl
  | cons b t ih =>
    intro i0 m hnm
    have hab : a ≠ b := fun h => hnm (h ▸ List.mem_cons_self b t)
    have hat : a ∉ t := fun h => hnm (List.mem_cons.mpr (Or.inr h))
    simp only [idx_map_build_from]
    rw [ih (i0 + 1) _ hat]
    simp only [idx_map_emplace]
    split
    · rfl
    · rw [lookup_append_single]
      cases hm : m.lookup a with
      | none => simp [hab]
      | some w => simp

lemma idx_map_build_from_lookup (a : Nat) :
    ∀ (addrs : List Nat) (i0 : Nat) (m : List (Nat × Nat)),
      addrs.Nodup → (∀ z ∈ addrs, m.lookup z = none) →
      ∀ j (hj : j < addrs.length), addrs.get ⟨j, hj⟩ = a →
        (idx_map_build_from addrs i0 m).lookup a = some (i0 + j) := by
  intro addrs
  induction addrs with
  | nil =>
    intro i0 m _ _ j hj
    exact absurd hj (Nat.not_lt_zero j)
  | cons b t ih =>
    intro i0 m hnd hfresh j hj hget
    have hbm : m.lookup b = none := hfresh b (List.mem_cons_self b t)
    have hbt : b ∉ t := (List.nodup_cons.mp hnd).1
    have hem : idx_map_emplace m b i0 = m ++ [(b, i0)] := by
      simp only [idx_map_emplace, hbm]
      rfl
    cases j with
    | zero =>
      have hba : b = a := hget
      simp only [idx_map_build_from, hem]
      rw [← hba]
      rw [idx_map_build_from_lookup_not_mem b t (i0 + 1) _ hbt, lookup_append_single, hbm]
      simp
    | succ k =>
      have hkt : k < t.length := by
        simp only [List.length_cons] at hj
        omega
      have hget2 : t.get ⟨k, hkt⟩ = a := hget
      have hfresh2 : ∀ z ∈ t, (m ++ [(b, i0)]).lookup z = none := by
        intro z hz
        have hzb : z ≠ b := fun h => hbt (h ▸ hz)
        rw [lookup_append_single, hfresh z (List.mem_cons.mpr (Or.inr hz))]
        simp [hzb]
      have := ih (i0 + 1) (m ++ [(b, i0)]) (List.nodup_cons.mp hnd).2 hfresh2 k hkt hget2
      simp only [idx_map_build_from, hem]
      rw [this]
      congr 1
      omega

/-- C10: archipelago::load is atomic.  If deserializing the islands, the migrants
or the topology fails, the target archipelago is unchanged and the failure is
reported; on full success the target becomes the archipelago rebuilt from the three
deserialized components, and the rebuilt index map sends the address of the i-th
loaded island to i (island addresses of live boxed islands being distinct). -/
theorem archi_load_atomic {ι τ : Type} (a : archi ι τ) (ar : archive ι τ) :
    ((ar.islands = none ∨ ar.migrants = none ∨ ar.topo = none) →
      (a.load ar).1 = .error () ∧ (a.load ar).2 = a) ∧
    (∀ isls migs t, ar.islands = some isls → ar.migrants = some migs →
      ar.topo = some t →
      (a.load ar).1 = .ok () ∧
      (a.load ar).2 = { m_islands := isls,
                        m_idx_map := idx_map_build (isls.map Prod.fst),
                        m_migrants := migs, m_topology := t } ∧
      ((isls.map Prod.fst).Nodup →
        ∀ j (hj : j < isls.length),
          ((a.load ar).2.m_idx_map).lookup (isls.get ⟨j, hj⟩).1 = some j)) := by
  constructor
  · intro h
    rcases hio : ar.islands with _ | isls
    · have hload : a.load ar = (.error (), a) := by
        simp only [archi.load, hio]
      rw [hload]
      exact ⟨rfl, rfl⟩
    · rcases hmo : ar.migrants with _ | migs
      · have hload : a.load ar = (.error (), a) := by
          simp only [archi.load, hio, hmo]
        rw [hload]
        exact ⟨rfl, rfl⟩
      · rcases hto : ar.topo with _ | t
        · have hload : a.load ar = (.error (), a) := by
            simp only [archi.load, hio, hmo, hto]
          rw [hload]
          exact ⟨rfl, rfl⟩
        · rcases h with h | h | h
          · rw [hio] at h
            exact Option.noConfusion h
          · rw [hmo] at h
            exact Option.noConfusion h
          · rw [hto] at h
            exact Option.noConfusion h
  · intro isls migs t hio hmo hto
    have hload : a.load ar = (.ok (),
        { m_islands := isls, m_idx_map := idx_map_build (isls.map Prod.fst),
          m_migrants := migs, m_topology := t }) := by
      simp only [archi.load, hio, hmo, hto]
    refine ⟨by rw [hload], by rw [hload], ?_⟩
    intro hnd j hj
    rw [hload]
    have hjm : j < (isls.map Prod.fst).length := by
      rw [List.length_map]
      exact hj
    have hget : (isls.map Prod.fst).get ⟨j, hjm⟩ = (isls.get ⟨j, hj⟩).1 := by
      simp [List.getElem_map]
    have hlook := idx_map_build_from_lookup (isls.get ⟨j, hj⟩).1 (isls.map Prod.fst) 0 []
      hnd (fun z _ => rfl) j hjm hget
    show ((idx_map_build (isls.map Prod.fst)).lookup (isls.get ⟨j, hj⟩).1) = some j
    simpa [idx_map_build] using hlook

/-- A concrete empty archipelago over island payloads and topologies both
modelled as naturals. -/
def arch0 : archi Nat Nat :=
  { m_islands := [], m_idx_map := [], m_migrants := [], m_topology := 0 }

/-- A concrete archive holding two islands (addresses 10 and 20), no migrants and
topology 5. -/
def arv0 : archive Nat Nat :=
  { islands := some [(10, 0), (20, 1)], migrants := some [], topo := some 5 }

/-- A concrete archive whose island deserialization fails. -/
def arv_bad : archive Nat Nat :=
  { islands := none, migrants := some [], topo := some 5 }

/-- Witness for C10: a concrete successful load installs the loaded state with a
correct index map, and a concrete failing load leaves the target unchanged. -/
theorem archi_load_atomic_witness :
    (arch0.load arv0).1 = .ok () ∧
    ((arch0.load arv0).2.m_idx_map).lookup 20 = some 1 ∧
    (arch0.load arv_bad).2 = arch0 := by
  have h := (archi_load_atomic arch0 arv0).2 [(10, 0), (20, 1)] [] 5 rfl rfl rfl
  have hbad := (archi_load_atomic arch0 arv_bad).1 (Or.inl rfl)
  exact ⟨h.1, h.2.2 (by decide) 1 (by decide), hbad.2⟩

end LoadTheorems

end Pagmo
